import Mathlib

/-!
Verification of the netrc parsing library (`src/parser_combinator.rs`,
`src/netrc_parser.rs`, `src/raw_netrc_parser.rs`).

The tokenizer and the config-building state machine are embedded as
executable Lean functions over `List Char`.  Host normalization
(`url::Host::parse`) is an external collaborator of the library; the
embedding is parameterized by an arbitrary normalization function
`hp : List Char → Option Host` over an arbitrary type of normalized hosts
with decidable equality, exactly matching the narrow interface the library
uses (parse, equality as map key).
-/

namespace Netrc

/-- The Unicode `White_Space` code points, the predicate used by Rust's
`char::is_whitespace`, which the tokenizer applies via
`take_while(|c: char| c.is_whitespace())`. -/
def rustIsWhitespace (c : Char) : Bool :=
  let n := c.toNat
  (decide (9 ≤ n) && decide (n ≤ 13)) || n == 32 || n == 0x85 || n == 0xA0 ||
    n == 0x1680 || (decide (0x2000 ≤ n) && decide (n ≤ 0x200A)) ||
    n == 0x2028 || n == 0x2029 || n == 0x202F || n == 0x205F || n == 0x3000

/-- The token type of `parser_combinator.rs` (`enum Token`). -/
inductive Token where
  | machine
  | default
  | login
  | password
  | account
  | macDef (name : List Char) (content : List Char)
  | comment (text : List Char)
  | text (value : List Char)
deriving DecidableEq, Repr

/-- The token rendering `impl ToString for Token` from the source: the textual rendering used
when a token is consumed as the argument of a keyword. -/
def Token.toString : Token → List Char
  | .machine => "machine".toList
  | .default => "default".toList
  | .login => "login".toList
  | .password => "password".toList
  | .account => "account".toList
  | .macDef name content => "macdef ".toList ++ name ++ " ".toList ++ content
  | .comment c => "# ".toList ++ c
  | .text t => t

/-- The nom combinator `tag(t)`: succeed consuming `t` exactly when `t` is a prefix of
the input, otherwise fail. -/
def tagP (t : List Char) (input : List Char) : Option (Unit × List Char) :=
  if t.isPrefixOf input then some ((), input.drop t.length) else none

/-- The parser `drop_whitespace` from the source: `take_while(is_whitespace)`,
mapped to `()`.  Always succeeds. -/
def drop_whitespace (input : List Char) : Option (Unit × List Char) :=
  some ((), input.dropWhile rustIsWhitespace)

/-- The parser `word` from the source: `take_while1(|c| !c.is_whitespace())`;
fails when the input does not start with a non-whitespace character. -/
def word (input : List Char) : Option (List Char × List Char) :=
  match input.takeWhile (fun c => !rustIsWhitespace c) with
  | [] => none
  | w => some (w, input.dropWhile (fun c => !rustIsWhitespace c))

/-- The nom combinator `take_until(t)` (on `complete` input): consume everything up to but
not including the first occurrence of `t`; fail if `t` does not occur. -/
def splitUntil (t : List Char) : List Char → Option (List Char × List Char)
  | [] => none
  | c :: cs =>
    if t.isPrefixOf (c :: cs) then some ([], c :: cs)
    else
      match splitUntil t cs with
      | some (pre, rest) => some (c :: pre, rest)
      | none => none

/-- The `machine` keyword parser: `map(tag("machine"), |_| Token::Machine)`. -/
def machine (input : List Char) : Option (Token × List Char) :=
  match tagP "machine".toList input with
  | some (_, r) => some (Token.machine, r)
  | none => none

/-- The `login` keyword parser. -/
def login (input : List Char) : Option (Token × List Char) :=
  match tagP "login".toList input with
  | some (_, r) => some (Token.login, r)
  | none => none

/-- The `password` keyword parser. -/
def password (input : List Char) : Option (Token × List Char) :=
  match tagP "password".toList input with
  | some (_, r) => some (Token.password, r)
  | none => none

/-- The `account` keyword parser. -/
def account (input : List Char) : Option (Token × List Char) :=
  match tagP "account".toList input with
  | some (_, r) => some (Token.account, r)
  | none => none

/-- The `default` keyword parser from the source (named `defaultP` here to
avoid clashing with Lean's `Inhabited.default`). -/
def defaultP (input : List Char) : Option (Token × List Char) :=
  match tagP "default".toList input with
  | some (_, r) => some (Token.default, r)
  | none => none

/-- The `comment` parser: `tag("# ")` then `take_until("\n")`. -/
def comment (input : List Char) : Option (Token × List Char) :=
  match tagP "# ".toList input with
  | none => none
  | some (_, r1) =>
    match splitUntil ['\n'] r1 with
    | none => none
    | some (c, r2) => some (Token.comment c, r2)

/-- The `text` parser: a `word` becomes a `Text` token. -/
def text (input : List Char) : Option (Token × List Char) :=
  match word input with
  | some (w, r) => some (Token.text w, r)
  | none => none

/-- The `macdef` parser: `tag("macdef")`, `drop_whitespace`, `word`, then
`alt((take_until("\n\n"), take_while(|_| true)))`. -/
def macdef (input : List Char) : Option (Token × List Char) :=
  match tagP "macdef".toList input with
  | none => none
  | some (_, r1) =>
    match drop_whitespace r1 with
    | none => none
    | some (_, r2) =>
      match word r2 with
      | none => none
      | some (name, r3) =>
        match splitUntil ['\n', '\n'] r3 with
        | some (content, r4) => some (Token.macDef name content, r4)
        | none => some (Token.macDef name r3, [])

/-- The `token` parser: the `alt` over all token parsers, in source order. -/
def token (input : List Char) : Option (Token × List Char) :=
  match machine input with
  | some r => some r
  | none =>
  match login input with
  | some r => some r
  | none =>
  match password input with
  | some r => some r
  | none =>
  match account input with
  | some r => some r
  | none =>
  match defaultP input with
  | some r => some r
  | none =>
  match comment input with
  | some r => some r
  | none =>
  match macdef input with
  | some r => some r
  | none => text input

/-- One iteration of the `tokenize` loop:
`tuple((drop_whitespace, token))`. -/
def tokenizeStep (input : List Char) : Option (Token × List Char) :=
  match drop_whitespace input with
  | some (_, r) => token r
  | none => none

/-- The `tokenize` loop, with explicit fuel (each successful step consumes at
least one character, so `input.length + 1` fuel always suffices — proved
below).  `Comment` tokens are dropped, as in the source loop. -/
def tokenizeFuel : Nat → List Char → List Token
  | 0, _ => []
  | f + 1, input =>
    match tokenizeStep input with
    | none => []
    | some (t, rest) =>
      match t with
      | Token.comment _ => tokenizeFuel f rest
      | t => t :: tokenizeFuel f rest

/-- The tokenizer `tokenize` from the source. -/
def tokenize (input : List Char) : List Token :=
  tokenizeFuel (input.length + 1) input

/-- The record type `RawEntry` from `raw_netrc_parser.rs`. -/
structure RawEntry where
  login : Option (List Char)
  password : Option (List Char)
  account : Option (List Char)
deriving DecidableEq, Repr

/-- The empty record `RawEntry::default()`: all fields absent. -/
def RawEntry.default : RawEntry := ⟨none, none, none⟩

/-- The configuration type `NetrcConfig` from `parser_combinator.rs`.  The `HashMap<Host, RawEntry>`
is embedded by its lookup function. -/
structure NetrcConfig (Host : Type) where
  entries : Host → Option RawEntry
  default : Option RawEntry

/-- The map update `HashMap::insert`: later inserts for the same key overwrite. -/
def insertEntry {Host : Type} [DecidableEq Host]
    (m : Host → Option RawEntry) (k : Host) (v : RawEntry) :
    Host → Option RawEntry :=
  fun k' => if k' = k then some v else m k'

/-- The mutable locals of the `parse_config` loop. -/
structure BuildState (Host : Type) where
  entries : Host → Option RawEntry
  default : RawEntry
  active_machine : Option Host
  active_entry : RawEntry
  in_default : Bool

/-- The initial state of the `parse_config` loop. -/
def initState (Host : Type) : BuildState Host :=
  ⟨fun _ => none, RawEntry.default, none, RawEntry.default, false⟩

/-- The commit step, from the source line `if let Some(ref machine) = active_machine ... entries.insert ...`:
the commit of the active block, used at each `Machine` token and at
finalization. -/
def commitActive {Host : Type} [DecidableEq Host] (s : BuildState Host) :
    Host → Option RawEntry :=
  match s.active_machine with
  | some m => insertEntry s.entries m s.active_entry
  | none => s.entries

/-- The `Login` assignment: into `default` when `in_default`, else into
`active_entry`. -/
def setLogin {Host : Type} (s : BuildState Host) (v : Option (List Char)) :
    BuildState Host :=
  if s.in_default then { s with default := { s.default with login := v } }
  else { s with active_entry := { s.active_entry with login := v } }

/-- The `Password` assignment. -/
def setPassword {Host : Type} (s : BuildState Host) (v : Option (List Char)) :
    BuildState Host :=
  if s.in_default then { s with default := { s.default with password := v } }
  else { s with active_entry := { s.active_entry with password := v } }

/-- The `Account` assignment. -/
def setAccount {Host : Type} (s : BuildState Host) (v : Option (List Char)) :
    BuildState Host :=
  if s.in_default then { s with default := { s.default with account := v } }
  else { s with active_entry := { s.active_entry with account := v } }

/-- The `while let Some(next) = tokens.get(i)` loop of `parse_config`,
one equation per token shape.  A keyword that consumes an argument
(`Machine`, `Login`, `Password`, `Account`) advances past both tokens;
with no following token the assignment stores `None` (as
`tokens.get(i).map(Token::to_string)` does) and the loop ends. -/
def parse_loop {Host : Type} [DecidableEq Host]
    (hp : List Char → Option Host) :
    BuildState Host → List Token → BuildState Host
  | s, [] => s
  | s, [Token.machine] => { s with in_default := false, entries := commitActive s }
  | s, Token.machine :: t :: rest =>
    parse_loop hp
      { s with in_default := false, entries := commitActive s,
               active_machine := hp t.toString,
               active_entry := RawEntry.default } rest
  | s, Token.default :: rest => parse_loop hp { s with in_default := true } rest
  | s, [Token.login] => setLogin s none
  | s, Token.login :: t :: rest => parse_loop hp (setLogin s (some t.toString)) rest
  | s, [Token.password] => setPassword s none
  | s, Token.password :: t :: rest => parse_loop hp (setPassword s (some t.toString)) rest
  | s, [Token.account] => setAccount s none
  | s, Token.account :: t :: rest => parse_loop hp (setAccount s (some t.toString)) rest
  | s, Token.macDef _ _ :: rest => parse_loop hp s rest
  | s, Token.comment _ :: rest => parse_loop hp s rest
  | s, Token.text _ :: rest => parse_loop hp { s with active_machine := none } rest

/-- Finalization of `parse_config`: commit a still-active block, and set
`default` to `None` exactly when the accumulated default record is empty. -/
def configOf {Host : Type} [DecidableEq Host] (s : BuildState Host) :
    NetrcConfig Host :=
  { entries := commitActive s,
    default := if s.default = RawEntry.default then none else some s.default }

/-- The builder `parse_config` from the source, parameterized by host normalization. -/
def parse_config {Host : Type} [DecidableEq Host]
    (hp : List Char → Option Host) (input : List Char) : NetrcConfig Host :=
  configOf (parse_loop hp (initState Host) (tokenize input))

/-- The validated entry type `ValidatedEntry` from `netrc_parser.rs`. -/
structure ValidatedEntry where
  login : Option (List Char)
  password : List Char
deriving DecidableEq, Repr

/-- The resolution step shared by both accessors:
`config.entries.get(host).or(config.default.as_ref())`. -/
def rawResolve {Host : Type} (cfg : NetrcConfig Host) (h : Host) :
    Option RawEntry :=
  match cfg.entries h with
  | some e => some e
  | none => cfg.default

/-- The validation match of `NetrcParser::entry_for_host`:
`match (entry.login.or(entry.account), entry.password)`. -/
def validate (e : RawEntry) : Option ValidatedEntry :=
  match e.login.or e.account, e.password with
  | l, some p => some ⟨l, p⟩
  | _, none => none

/-- The pure part of `NetrcParser::entry_for_host` once a configuration is
available: resolve, then validate. -/
def entryLookup {Host : Type} (cfg : NetrcConfig Host) (h : Host) :
    Option ValidatedEntry :=
  match rawResolve cfg h with
  | some e => validate e
  | none => none

/-- The state of a `NetrcParser<R>` accessor.  The backing byte source `R`
is modelled by the sequence of outcomes of successive `read_to_string`
calls (`none` = I/O error, `some s` = success yielding `s`), together with
a counter of reads performed so far. -/
structure NetrcParserState (Host : Type) where
  reads : Nat → Option (List Char)
  pos : Nat
  config : Option (NetrcConfig Host)

/-- The constructor `NetrcParser::new(buffer)`: fresh accessor, nothing cached. -/
def NetrcParser.new {Host : Type} (reads : Nat → Option (List Char)) :
    NetrcParserState Host :=
  ⟨reads, 0, none⟩

/-- The lookup `NetrcParser::entry_for_host`: reads the byte source
(`self.buffer.read_to_string(&mut buf_content)?` — performed on every call,
before the memoized config is consulted), then uses the cached configuration
if present, else parses and caches, then resolves and validates. -/
def entry_for_host {Host : Type} [DecidableEq Host]
    (hp : List Char → Option Host) (s : NetrcParserState Host) (h : Host) :
    Except Unit (Option ValidatedEntry) × NetrcParserState Host :=
  match s.reads s.pos with
  | none => (Except.error (), { s with pos := s.pos + 1 })
  | some content =>
    let cfg :=
      match s.config with
      | some c => c
      | none => parse_config hp content
    (Except.ok (entryLookup cfg h),
     { s with pos := s.pos + 1, config := some cfg })

/-- A concrete host-normalization function used by witnesses: recognizes
exactly the hosts `a.com` (as `0`) and `b.org` (as `1`). -/
def hpW : List Char → Option Nat :=
  fun l =>
    if l = "a.com".toList then some 0
    else if l = "b.org".toList then some 1
    else none

/-- Two consecutive line breaks (a blank line) occur somewhere in the list. -/
def hasBlankLine : List Char → Bool
  | [] => false
  | [_] => false
  | c :: d :: rest => (c == '\n' && d == '\n') || hasBlankLine (d :: rest)

/-- A concrete host-normalization function for witnesses over the one-letter
host `A`. -/
def hpA : List Char → Option Nat := fun l => if l = ['A'] then some 3 else none

/-- A concrete configuration for the witness of the validated-lookup
theorem: host `0` has an account and a password but no login; the default
record has a login and a password. -/
def cfgW : NetrcConfig Nat :=
  ⟨fun h => if h = 0 then some ⟨none, some ['p'], some ['a']⟩ else none,
   some ⟨some ['d'], some ['q'], none⟩⟩

/-- A byte source whose first read succeeds with a one-entry netrc and whose
second read fails with an I/O error. -/
def failingSource : Nat → Option (List Char) :=
  fun n => if n = 0 then some "machine a.com login u password p".toList else none

/-- A byte source whose reads all succeed but which yields different bytes
on the second read. -/
def changingSource : Nat → Option (List Char) :=
  fun n =>
    if n = 0 then some "machine a.com login u password p".toList
    else some "machine a.com login x password y".toList

/-! ## Tokenizer consumption lemmas -/

theorem tagP_eq_some {t input rest : List Char} {u : Unit}
    (h : tagP t input = some (u, rest)) :
    t <+: input ∧ rest = input.drop t.length := by
  unfold tagP at h
  split at h
  · rename_i hpre
    refine ⟨List.isPrefixOf_iff_prefix.mp hpre, ?_⟩
    simp only [Option.some.injEq, Prod.mk.injEq] at h
    exact h.2.symm
  · exact absurd h (by simp)

theorem tagP_none {t input : List Char} (h : (t.isPrefixOf input) = false) :
    tagP t input = none := by
  unfold tagP
  rw [if_neg (by simp [h])]

theorem tokenizeFuel_nil : ∀ f : Nat, tokenizeFuel f [] = [] := by
  intro f
  cases f with
  | zero => rfl
  | succ f => rfl

theorem tagP_length {t input rest : List Char} {u : Unit}
    (h : tagP t input = some (u, rest)) :
    rest.length + t.length = input.length := by
  obtain ⟨hpre, hrest⟩ := tagP_eq_some h
  have hle := hpre.length_le
  subst hrest
  simp only [List.length_drop]
  omega

theorem splitUntil_eq_some {t : List Char} :
    ∀ {input pre rest : List Char}, splitUntil t input = some (pre, rest) →
      pre ++ rest = input := by
  intro input
  induction input with
  | nil => intro pre rest h; simp [splitUntil] at h
  | cons c cs ih =>
    intro pre rest h
    unfold splitUntil at h
    split at h
    · simp only [Option.some.injEq, Prod.mk.injEq] at h
      rw [← h.1, ← h.2]; rfl
    · cases hrec : splitUntil t cs with
      | none => rw [hrec] at h; exact absurd h (by simp)
      | some pr =>
        obtain ⟨p, r⟩ := pr
        rw [hrec] at h
        simp only [Option.some.injEq, Prod.mk.injEq] at h
        rw [← h.1, ← h.2]
        simpa using ih hrec

theorem word_eq_some {input w rest : List Char} (h : word input = some (w, rest)) :
    w ≠ [] ∧ w ++ rest = input ∧
      w = input.takeWhile (fun c => !rustIsWhitespace c) ∧
      rest = input.dropWhile (fun c => !rustIsWhitespace c) := by
  unfold word at h
  split at h
  · exact absurd h (by simp)
  · rename_i hne
    simp only [Option.some.injEq, Prod.mk.injEq] at h
    obtain ⟨h1, h2⟩ := h
    refine ⟨fun hw => hne (by rw [h1, hw]), ?_, h1.symm, h2.symm⟩
    rw [← h1, ← h2]
    exact List.takeWhile_append_dropWhile _ _

theorem machine_consumes {input rest : List Char} {tk : Token}
    (h : machine input = some (tk, rest)) : rest.length < input.length := by
  unfold machine at h
  cases htag : tagP "machine".toList input with
  | none => rw [htag] at h; exact absurd h (by simp)
  | some ur =>
    obtain ⟨u, r⟩ := ur
    rw [htag] at h
    simp only [Option.some.injEq, Prod.mk.injEq] at h
    have hl := tagP_length htag
    have h7 : ("machine".toList).length = 7 := rfl
    rw [h7] at hl
    rw [← h.2]
    omega

theorem login_consumes {input rest : List Char} {tk : Token}
    (h : login input = some (tk, rest)) : rest.length < input.length := by
  unfold login at h
  cases htag : tagP "login".toList input with
  | none => rw [htag] at h; exact absurd h (by simp)
  | some ur =>
    obtain ⟨u, r⟩ := ur
    rw [htag] at h
    simp only [Option.some.injEq, Prod.mk.injEq] at h
    have hl := tagP_length htag
    have h5 : ("login".toList).length = 5 := rfl
    rw [h5] at hl
    rw [← h.2]
    omega

theorem password_consumes {input rest : List Char} {tk : Token}
    (h : password input = some (tk, rest)) : rest.length < input.length := by
  unfold password at h
  cases htag : tagP "password".toList input with
  | none => rw [htag] at h; exact absurd h (by simp)
  | some ur =>
    obtain ⟨u, r⟩ := ur
    rw [htag] at h
    simp only [Option.some.injEq, Prod.mk.injEq] at h
    have hl := tagP_length htag
    have h8 : ("password".toList).length = 8 := rfl
    rw [h8] at hl
    rw [← h.2]
    omega

theorem account_consumes {input rest : List Char} {tk : Token}
    (h : account input = some (tk, rest)) : rest.length < input.length := by
  unfold account at h
  cases htag : tagP "account".toList input with
  | none => rw [htag] at h; exact absurd h (by simp)
  | some ur =>
    obtain ⟨u, r⟩ := ur
    rw [htag] at h
    simp only [Option.some.injEq, Prod.mk.injEq] at h
    have hl := tagP_length htag
    have h7 : ("account".toList).length = 7 := rfl
    rw [h7] at hl
    rw [← h.2]
    omega

theorem defaultP_consumes {input rest : List Char} {tk : Token}
    (h : defaultP input = some (tk, rest)) : rest.length < input.length := by
  unfold defaultP at h
  cases htag : tagP "default".toList input with
  | none => rw [htag] at h; exact absurd h (by simp)
  | some ur =>
    obtain ⟨u, r⟩ := ur
    rw [htag] at h
    simp only [Option.some.injEq, Prod.mk.injEq] at h
    have hl := tagP_length htag
    have h7 : ("default".toList).length = 7 := rfl
    rw [h7] at hl
    rw [← h.2]
    omega

theorem comment_consumes {input rest : List Char} {tk : Token}
    (h : comment input = some (tk, rest)) : rest.length < input.length := by
  unfold comment at h
  cases htag : tagP "# ".toList input with
  | none => rw [htag] at h; exact absurd h (by simp)
  | some ur =>
    obtain ⟨u, r1⟩ := ur
    rw [htag] at h
    dsimp only at h
    cases hsp : splitUntil ['\n'] r1 with
    | none => rw [hsp] at h; exact absurd h (by simp)
    | some cr =>
      obtain ⟨c, r2⟩ := cr
      rw [hsp] at h
      simp only [Option.some.injEq, Prod.mk.injEq] at h
      have hl := tagP_length htag
      have h2 : ("# ".toList).length = 2 := rfl
      rw [h2] at hl
      have hsplit := splitUntil_eq_some hsp
      have : r2.length ≤ r1.length := by
        rw [← hsplit]; simp
      rw [← h.2]
      omega

theorem macdef_consumes {input rest : List Char} {tk : Token}
    (h : macdef input = some (tk, rest)) : rest.length < input.length := by
  unfold macdef at h
  cases htag : tagP "macdef".toList input with
  | none => rw [htag] at h; exact absurd h (by simp)
  | some ur =>
    obtain ⟨u, r1⟩ := ur
    rw [htag] at h
    dsimp only at h
    have hl := tagP_length htag
    have h6 : ("macdef".toList).length = 6 := rfl
    rw [h6] at hl
    simp only [drop_whitespace] at h
    have hr2 : (r1.dropWhile rustIsWhitespace).length ≤ r1.length :=
      (List.dropWhile_sublist (l := r1) (p := rustIsWhitespace)).length_le
    cases hw : word (r1.dropWhile rustIsWhitespace) with
    | none => rw [hw] at h; exact absurd h (by simp)
    | some nr =>
      obtain ⟨name, r3⟩ := nr
      rw [hw] at h
      dsimp only at h
      obtain ⟨-, hnr, -, -⟩ := word_eq_some hw
      have hr3 : r3.length ≤ (r1.dropWhile rustIsWhitespace).length := by
        rw [← hnr]; simp
      cases hsp : splitUntil ['\n', '\n'] r3 with
      | none =>
        rw [hsp] at h
        simp only [Option.some.injEq, Prod.mk.injEq] at h
        rw [← h.2]
        simp only [List.length_nil]
        omega
      | some cr =>
        obtain ⟨content, r4⟩ := cr
        rw [hsp] at h
        simp only [Option.some.injEq, Prod.mk.injEq] at h
        have hsplit := splitUntil_eq_some hsp
        have : r4.length ≤ r3.length := by
          rw [← hsplit]; simp
        rw [← h.2]
        omega

theorem text_consumes {input rest : List Char} {tk : Token}
    (h : text input = some (tk, rest)) : rest.length < input.length := by
  unfold text at h
  cases hw : word input with
  | none => rw [hw] at h; exact absurd h (by simp)
  | some wr =>
    obtain ⟨w, r⟩ := wr
    rw [hw] at h
    simp only [Option.some.injEq, Prod.mk.injEq] at h
    obtain ⟨hne, happ, -, -⟩ := word_eq_some hw
    have := List.length_pos.mpr hne
    rw [← h.2]
    rw [← happ]
    simp
    omega

theorem token_consumes {input : List Char} {tk : Token} {rest : List Char}
    (h : token input = some (tk, rest)) : rest.length < input.length := by
  unfold token at h
  cases h1 : machine input with
  | some r =>
    obtain ⟨tk', rest'⟩ := r
    rw [h1] at h
    simp only [Option.some.injEq, Prod.mk.injEq] at h
    obtain ⟨rfl, rfl⟩ := h
    exact machine_consumes h1
  | none =>
  rw [h1] at h
  cases h2 : login input with
  | some r =>
    obtain ⟨tk', rest'⟩ := r
    rw [h2] at h
    simp only [Option.some.injEq, Prod.mk.injEq] at h
    obtain ⟨rfl, rfl⟩ := h
    exact login_consumes h2
  | none =>
  rw [h2] at h
  cases h3 : password input with
  | some r =>
    obtain ⟨tk', rest'⟩ := r
    rw [h3] at h
    simp only [Option.some.injEq, Prod.mk.injEq] at h
    obtain ⟨rfl, rfl⟩ := h
    exact password_consumes h3
  | none =>
  rw [h3] at h
  cases h4 : account input with
  | some r =>
    obtain ⟨tk', rest'⟩ := r
    rw [h4] at h
    simp only [Option.some.injEq, Prod.mk.injEq] at h
    obtain ⟨rfl, rfl⟩ := h
    exact account_consumes h4
  | none =>
  rw [h4] at h
  cases h5 : defaultP input with
  | some r =>
    obtain ⟨tk', rest'⟩ := r
    rw [h5] at h
    simp only [Option.some.injEq, Prod.mk.injEq] at h
    obtain ⟨rfl, rfl⟩ := h
    exact defaultP_consumes h5
  | none =>
  rw [h5] at h
  cases h6 : comment input with
  | some r =>
    obtain ⟨tk', rest'⟩ := r
    rw [h6] at h
    simp only [Option.some.injEq, Prod.mk.injEq] at h
    obtain ⟨rfl, rfl⟩ := h
    exact comment_consumes h6
  | none =>
  rw [h6] at h
  cases h7 : macdef input with
  | some r =>
    obtain ⟨tk', rest'⟩ := r
    rw [h7] at h
    simp only [Option.some.injEq, Prod.mk.injEq] at h
    obtain ⟨rfl, rfl⟩ := h
    exact macdef_consumes h7
  | none =>
  rw [h7] at h
  exact text_consumes h

theorem tokenizeStep_consumes {input : List Char} {tk : Token} {rest : List Char}
    (h : tokenizeStep input = some (tk, rest)) : rest.length < input.length := by
  unfold tokenizeStep drop_whitespace at h
  have h1 := token_consumes h
  have h2 : (input.dropWhile rustIsWhitespace).length ≤ input.length :=
    (List.dropWhile_sublist (l := input) (p := rustIsWhitespace)).length_le
  omega

theorem tokenizeFuel_stable :
    ∀ (f g : Nat) (input : List Char), input.length < f → input.length < g →
      tokenizeFuel f input = tokenizeFuel g input := by
  intro f
  induction f with
  | zero => intro g input hf; omega
  | succ f ih =>
    intro g input hf hg
    cases g with
    | zero => omega
    | succ g =>
      simp only [tokenizeFuel]
      cases hstep : tokenizeStep input with
      | none => rfl
      | some tr =>
        obtain ⟨t, rest⟩ := tr
        have hlen := tokenizeStep_consumes hstep
        have h1 : rest.length < f := by omega
        have h2 : rest.length < g := by omega
        cases t <;> simp [ih g rest h1 h2]

/-- C9: for every finite input, tokenization and config building terminate:
every successful tokenizer step consumes at least one character of the
remaining input, the loop stops when no further token matches, and
`input.length + 1` fuel is always enough (any larger fuel gives the same
token sequence, so the loop ends within the input-size bound — including on
an unterminated macro, whose body extends to end of input).  The config
builder `parse_loop` is a structurally recursive total function, so it
terminates on every token sequence. -/
theorem tokenizer_and_builder_terminate :
    (∀ (input : List Char) (tk : Token) (rest : List Char),
        tokenizeStep input = some (tk, rest) → rest.length < input.length) ∧
    (∀ input : List Char, tokenizeStep input = none → tokenize input = []) ∧
    (∀ (input : List Char) (f : Nat), input.length < f →
        tokenizeFuel f input = tokenize input) := by
  refine ⟨fun _ _ _ h => tokenizeStep_consumes h, ?_, ?_⟩
  · intro input h
    unfold tokenize tokenizeFuel
    rw [h]
  · intro input f hf
    exact tokenizeFuel_stable f (input.length + 1) input hf (by omega)

/-- Witness for `tokenizer_and_builder_terminate`, at concrete inputs:
the step on `"macdef x"` (an unterminated macro) succeeds and consumes the
whole input, and fuel `42` tokenizes it like `tokenize` does. -/
theorem tokenizer_and_builder_terminate_witness :
    (tokenizeStep "macdef x".toList =
        some (Token.macDef ['x'] [], []) ∧ ([] : List Char).length < "macdef x".toList.length) ∧
    (tokenizeStep ([] : List Char) = none ∧ tokenize ([] : List Char) = []) ∧
    tokenizeFuel 42 "macdef x".toList = tokenize "macdef x".toList := by
  refine ⟨⟨by decide, ?_⟩, ⟨by decide, ?_⟩, ?_⟩
  · exact tokenizer_and_builder_terminate.1 "macdef x".toList
      (Token.macDef ['x'] []) [] (by decide)
  · exact tokenizer_and_builder_terminate.2.1 [] (by decide)
  · exact tokenizer_and_builder_terminate.2.2 "macdef x".toList 42 (by decide)

/-! ## Builder state-machine lemmas -/

@[simp] theorem setLogin_active_machine {Host : Type} (s : BuildState Host)
    (v : Option (List Char)) : (setLogin s v).active_machine = s.active_machine := by
  unfold setLogin; split <;> rfl

@[simp] theorem setLogin_entries {Host : Type} (s : BuildState Host)
    (v : Option (List Char)) : (setLogin s v).entries = s.entries := by
  unfold setLogin; split <;> rfl

@[simp] theorem setPassword_active_machine {Host : Type} (s : BuildState Host)
    (v : Option (List Char)) : (setPassword s v).active_machine = s.active_machine := by
  unfold setPassword; split <;> rfl

@[simp] theorem setPassword_entries {Host : Type} (s : BuildState Host)
    (v : Option (List Char)) : (setPassword s v).entries = s.entries := by
  unfold setPassword; split <;> rfl

@[simp] theorem setAccount_active_machine {Host : Type} (s : BuildState Host)
    (v : Option (List Char)) : (setAccount s v).active_machine = s.active_machine := by
  unfold setAccount; split <;> rfl

@[simp] theorem setAccount_entries {Host : Type} (s : BuildState Host)
    (v : Option (List Char)) : (setAccount s v).entries = s.entries := by
  unfold setAccount; split <;> rfl

/-- A `Text` token makes exactly one state change: it clears
`active_machine`. -/
theorem parse_loop_text {Host : Type} [DecidableEq Host]
    (hp : List Char → Option Host) (s : BuildState Host) (w : List Char)
    (rest : List Token) :
    parse_loop hp s (Token.text w :: rest) =
      parse_loop hp { s with active_machine := none } rest := by
  simp [parse_loop]

/-- While `active_machine` is absent and no `Machine` token arrives, nothing
is ever committed into `entries` and `active_machine` stays absent. -/
theorem parse_loop_no_machine {Host : Type} [DecidableEq Host]
    (hp : List Char → Option Host) :
    ∀ (s : BuildState Host) (ts : List Token),
      s.active_machine = none → (∀ t ∈ ts, t ≠ Token.machine) →
      (parse_loop hp s ts).active_machine = none ∧
      (parse_loop hp s ts).entries = s.entries := by
  intro s ts
  induction s, ts using parse_loop.induct hp with
  | case1 s => intro h _; exact ⟨h, rfl⟩
  | case2 s => intro _ hnm; exact absurd rfl (hnm Token.machine (by simp))
  | case3 s t rest ih => intro _ hnm; exact absurd rfl (hnm Token.machine (by simp))
  | case4 s rest ih =>
    intro h hnm
    have := ih h (fun t ht => hnm t (by simp [ht]))
    simpa [parse_loop] using this
  | case5 s => intro h _; simp [parse_loop, h]
  | case6 s t rest ih =>
    intro h hnm
    have := ih (by simpa using h) (fun t ht => hnm t (by simp [ht]))
    simpa [parse_loop] using this
  | case7 s => intro h _; simp [parse_loop, h]
  | case8 s t rest ih =>
    intro h hnm
    have := ih (by simpa using h) (fun t ht => hnm t (by simp [ht]))
    simpa [parse_loop] using this
  | case9 s => intro h _; simp [parse_loop, h]
  | case10 s t rest ih =>
    intro h hnm
    have := ih (by simpa using h) (fun t ht => hnm t (by simp [ht]))
    simpa [parse_loop] using this
  | case11 s n c rest ih =>
    intro h hnm
    have := ih h (fun t ht => hnm t (by simp [ht]))
    simpa [parse_loop] using this
  | case12 s c rest ih =>
    intro h hnm
    have := ih h (fun t ht => hnm t (by simp [ht]))
    simpa [parse_loop] using this
  | case13 s w rest ih =>
    intro h hnm
    have := ih rfl (fun t ht => hnm t (by simp [ht]))
    simpa [parse_loop] using this


/-- C4: for every preceding parse state and every host that normalizes, a
token sequence carrying two `machine` blocks for the same host yields, both
at the builder level and through the full text pipeline, the record built
from the later block — `login`/`password` of the earlier block are gone and
the two blocks' fields are not merged. -/
theorem duplicate_machine_blocks_last_write_wins {Host : Type} [DecidableEq Host] :
    (∀ (hp : List Char → Option Host) (s : BuildState Host) (hstr : List Char)
        (H : Host) (x y z w : List Char), hp hstr = some H →
        (configOf (parse_loop hp s
          [Token.machine, Token.text hstr, Token.login, Token.text x,
           Token.password, Token.text y,
           Token.machine, Token.text hstr, Token.login, Token.text z,
           Token.password, Token.text w])).entries H =
          some ⟨some z, some w, none⟩) ∧
    (∀ (hp : List Char → Option Host) (H : Host), hp "a.com".toList = some H →
        rawResolve (parse_config hp
          "machine a.com login x password y machine a.com login z password w".toList) H =
          some ⟨some ['z'], some ['w'], none⟩) := by
  constructor
  · intro hp s hstr H x y z w hH
    simp [parse_loop, setLogin, setPassword, configOf, commitActive, insertEntry,
          Token.toString, hH, RawEntry.default]
  · intro hp H hH
    have htok : tokenize
        "machine a.com login x password y machine a.com login z password w".toList =
        [Token.machine, Token.text "a.com".toList, Token.login, Token.text ['x'],
         Token.password, Token.text ['y'],
         Token.machine, Token.text "a.com".toList, Token.login, Token.text ['z'],
         Token.password, Token.text ['w']] := by decide
    have hH' : hp ['a', '.', 'c', 'o', 'm'] = some H := hH
    unfold parse_config
    rw [htok]
    simp [parse_loop, setLogin, setPassword, configOf, commitActive, insertEntry,
          rawResolve, Token.toString, hH', initState, RawEntry.default]

/-- Witness for `duplicate_machine_blocks_last_write_wins` at a concrete
host map, state and values. -/
theorem duplicate_machine_blocks_last_write_wins_witness :
    (configOf (parse_loop hpW (initState Nat)
      [Token.machine, Token.text "a.com".toList, Token.login, Token.text ['1'],
       Token.password, Token.text ['2'],
       Token.machine, Token.text "a.com".toList, Token.login, Token.text ['3'],
       Token.password, Token.text ['4']])).entries 0 =
      some ⟨some ['3'], some ['4'], none⟩ ∧
    rawResolve (parse_config hpW
      "machine a.com login x password y machine a.com login z password w".toList) 0 =
      some ⟨some ['z'], some ['w'], none⟩ :=
  ⟨duplicate_machine_blocks_last_write_wins.1 hpW (initState Nat) "a.com".toList 0
      ['1'] ['2'] ['3'] ['4'] (by decide),
   duplicate_machine_blocks_last_write_wins.2 hpW 0 (by decide)⟩

/-- C5: an unrecognized bare word (`Text` token) clears `active_machine` and
changes nothing else, so the enclosing machine block is never committed; the
parse is a total function (it never fails), and a later well-formed machine
block in the same input still resolves normally: in
`machine a.com login u foo password p machine b.org login v password q`,
lookup of `a.com` is absent while `b.org` resolves. -/
theorem text_invalidates_only_enclosing_block {Host : Type} [DecidableEq Host] :
    (∀ (hp : List Char → Option Host) (s : BuildState Host) (w : List Char)
        (rest : List Token),
        parse_loop hp s (Token.text w :: rest) =
          parse_loop hp { s with active_machine := none } rest) ∧
    (∀ (hp : List Char → Option Host) (hA hB : Host),
        hp "a.com".toList = some hA → hp "b.org".toList = some hB → hA ≠ hB →
        rawResolve (parse_config hp
          "machine a.com login u foo password p machine b.org login v password q".toList)
          hA = none ∧
        rawResolve (parse_config hp
          "machine a.com login u foo password p machine b.org login v password q".toList)
          hB = some ⟨some ['v'], some ['q'], none⟩) := by
  refine ⟨parse_loop_text, ?_⟩
  intro hp hA hB h1 h2 hne
  have htok : tokenize
      "machine a.com login u foo password p machine b.org login v password q".toList =
      [Token.machine, Token.text "a.com".toList, Token.login, Token.text ['u'],
       Token.text "foo".toList, Token.password, Token.text ['p'],
       Token.machine, Token.text "b.org".toList, Token.login, Token.text ['v'],
       Token.password, Token.text ['q']] := by decide
  have h1' : hp ['a', '.', 'c', 'o', 'm'] = some hA := h1
  have h2' : hp ['b', '.', 'o', 'r', 'g'] = some hB := h2
  unfold parse_config
  rw [htok]
  simp [parse_loop, setLogin, setPassword, configOf, commitActive, insertEntry,
        rawResolve, Token.toString, h1', h2', initState, RawEntry.default, hne]

/-- Witness for `text_invalidates_only_enclosing_block` at a concrete host
map. -/
theorem text_invalidates_only_enclosing_block_witness :
    parse_loop hpW (initState Nat) [Token.text "junk".toList] =
      parse_loop hpW { initState Nat with active_machine := none } [] ∧
    rawResolve (parse_config hpW
      "machine a.com login u foo password p machine b.org login v password q".toList)
      0 = none ∧
    rawResolve (parse_config hpW
      "machine a.com login u foo password p machine b.org login v password q".toList)
      1 = some ⟨some ['v'], some ['q'], none⟩ :=
  ⟨text_invalidates_only_enclosing_block.1 hpW (initState Nat) "junk".toList [],
   (text_invalidates_only_enclosing_block.2 hpW 0 1 (by decide) (by decide)
      (by decide)).1,
   (text_invalidates_only_enclosing_block.2 hpW 0 1 (by decide) (by decide)
      (by decide)).2⟩

/-- C8: when the word after a `machine` keyword fails host normalization, no
error is raised — the transition commits any pending block, clears
`in_default`, sets `active_machine` to absent and resets the active record;
from then on (until another `Machine` token) nothing is ever committed into
`entries`; and parsing continues over the rest of the input, so a later
well-formed block still resolves while the failed block leaves no entry. -/
theorem host_normalization_failure_discards_block {Host : Type} [DecidableEq Host] :
    (∀ (hp : List Char → Option Host) (s : BuildState Host) (hstr : List Char)
        (rest : List Token), hp hstr = none →
        parse_loop hp s (Token.machine :: Token.text hstr :: rest) =
          parse_loop hp
            { s with in_default := false, entries := commitActive s,
                     active_machine := none, active_entry := RawEntry.default }
            rest) ∧
    (∀ (hp : List Char → Option Host) (s : BuildState Host) (ts : List Token),
        s.active_machine = none → (∀ t ∈ ts, t ≠ Token.machine) →
        (parse_loop hp s ts).active_machine = none ∧
        (parse_loop hp s ts).entries = s.entries ∧
        (configOf (parse_loop hp s ts)).entries = s.entries) ∧
    (∀ (hp : List Char → Option Host) (hB : Host),
        hp "bad^host".toList = none → hp "b.org".toList = some hB →
        rawResolve (parse_config hp
          "machine bad^host login u password p machine b.org login v password q".toList)
          hB = some ⟨some ['v'], some ['q'], none⟩ ∧
        (∀ hX : Host, hX ≠ hB →
          (parse_config hp
            "machine bad^host login u password p machine b.org login v password q".toList).entries
            hX = none)) := by
  refine ⟨?_, ?_, ?_⟩
  · intro hp s hstr rest hfail
    simp [parse_loop, Token.toString, hfail]
  · intro hp s ts hact hnm
    obtain ⟨hact', hent⟩ := parse_loop_no_machine hp s ts hact hnm
    refine ⟨hact', hent, ?_⟩
    unfold configOf commitActive
    rw [hact', hent]
  · intro hp hB hfail hok
    have htok : tokenize
        "machine bad^host login u password p machine b.org login v password q".toList =
        [Token.machine, Token.text "bad^host".toList, Token.login, Token.text ['u'],
         Token.password, Token.text ['p'],
         Token.machine, Token.text "b.org".toList, Token.login, Token.text ['v'],
         Token.password, Token.text ['q']] := by decide
    have hfail' : hp ['b', 'a', 'd', '^', 'h', 'o', 's', 't'] = none := hfail
    have hok' : hp ['b', '.', 'o', 'r', 'g'] = some hB := hok
    unfold parse_config
    rw [htok]
    constructor
    · simp [parse_loop, setLogin, setPassword, configOf, commitActive, insertEntry,
            rawResolve, Token.toString, hfail', hok', initState, RawEntry.default]
    · intro hX hne
      simp [parse_loop, setLogin, setPassword, configOf, commitActive, insertEntry,
            Token.toString, hfail', hok', initState, RawEntry.default, hne]

/-- Witness for `host_normalization_failure_discards_block` at a concrete
host map (under which `bad^host` and `zzz` fail normalization). -/
theorem host_normalization_failure_discards_block_witness :
    parse_loop hpW (initState Nat) [Token.machine, Token.text "zzz".toList] =
      parse_loop hpW
        { initState Nat with in_default := false,
                             entries := commitActive (initState Nat),
                             active_machine := none,
                             active_entry := RawEntry.default } [] ∧
    (parse_loop hpW (initState Nat) [Token.login]).entries = (initState Nat).entries ∧
    rawResolve (parse_config hpW
      "machine bad^host login u password p machine b.org login v password q".toList)
      1 = some ⟨some ['v'], some ['q'], none⟩ ∧
    (parse_config hpW
      "machine bad^host login u password p machine b.org login v password q".toList).entries
      0 = none :=
  ⟨host_normalization_failure_discards_block.1 hpW (initState Nat) "zzz".toList []
      (by decide),
   (host_normalization_failure_discards_block.2.1 hpW (initState Nat) [Token.login]
      rfl (by decide)).2.1,
   (host_normalization_failure_discards_block.2.2 hpW 1 (by decide) (by decide)).1,
   (host_normalization_failure_discards_block.2.2 hpW 1 (by decide) (by decide)).2 0
      (by decide)⟩

/-- C10: processing a `Text` token changes only `active_machine` — the
`entries`, `default` record, `active_entry` and `in_default` flag are all
carried over unchanged — so an unrecognized word during or after a `default`
section never invalidates the default record:
`default login u password p foo` still yields its default record for every
queried host. -/
theorem text_token_changes_only_active_host {Host : Type} [DecidableEq Host] :
    (∀ (hp : List Char → Option Host) (s : BuildState Host) (w : List Char)
        (rest : List Token),
        parse_loop hp s (Token.text w :: rest) =
          parse_loop hp
            ⟨s.entries, s.default, none, s.active_entry, s.in_default⟩ rest) ∧
    (∀ (hp : List Char → Option Host) (h : Host),
        rawResolve (parse_config hp "default login u password p foo".toList) h =
          some ⟨some ['u'], some ['p'], none⟩) := by
  constructor
  · intro hp s w rest
    exact parse_loop_text hp s w rest
  · intro hp h
    have htok : tokenize "default login u password p foo".toList =
        [Token.default, Token.login, Token.text ['u'], Token.password,
         Token.text ['p'], Token.text "foo".toList] := by decide
    unfold parse_config
    rw [htok]
    simp [parse_loop, setLogin, setPassword, configOf, commitActive, insertEntry,
          rawResolve, Token.toString, initState, RawEntry.default]

/-! ## Macro-body capture lemmas -/


theorem hasBlankLine_tail {c : Char} {l : List Char}
    (h : hasBlankLine (c :: l) = false) : hasBlankLine l = false := by
  cases l with
  | nil => rfl
  | cons d r =>
    simp only [hasBlankLine, Bool.or_eq_false_iff] at h
    exact h.2

theorem nlnl_isPrefixOf_eq_false {c d : Char} (l : List Char)
    (h : (c == '\n' && d == '\n') = false) :
    (['\n', '\n'].isPrefixOf (c :: d :: l)) = false := by
  simp only [List.isPrefixOf, Bool.and_true]
  rcases Bool.and_eq_false_iff.mp h with h1 | h1
  · exact Bool.and_eq_false_iff.mpr (Or.inl (beq_eq_false_iff_ne.mpr
      (Ne.symm (beq_eq_false_iff_ne.mp h1))))
  · exact Bool.and_eq_false_iff.mpr (Or.inr (beq_eq_false_iff_ne.mpr
      (Ne.symm (beq_eq_false_iff_ne.mp h1))))

theorem splitUntil_blank_none : ∀ {l : List Char}, hasBlankLine l = false →
    splitUntil ['\n', '\n'] l = none := by
  intro l
  induction l with
  | nil => intro _; rfl
  | cons c cs ih =>
    intro h
    have hpre : (['\n', '\n'].isPrefixOf (c :: cs)) = false := by
      cases cs with
      | nil => simp [List.isPrefixOf]
      | cons d r =>
        refine nlnl_isPrefixOf_eq_false r ?_
        simp only [hasBlankLine, Bool.or_eq_false_iff] at h
        exact h.1
    unfold splitUntil
    simp [hpre, ih (hasBlankLine_tail h)]

theorem splitUntil_blank_found :
    ∀ {pre : List Char} (post : List Char), hasBlankLine (pre ++ ['\n']) = false →
      splitUntil ['\n', '\n'] (pre ++ '\n' :: '\n' :: post) =
        some (pre, '\n' :: '\n' :: post) := by
  intro pre
  induction pre with
  | nil =>
    intro post _
    unfold splitUntil
    simp [List.isPrefixOf]
  | cons c cs ih =>
    intro post h
    have hpre : (['\n', '\n'].isPrefixOf (c :: (cs ++ '\n' :: '\n' :: post))) = false := by
      cases cs with
      | nil =>
        simp only [List.nil_append]
        refine nlnl_isPrefixOf_eq_false ('\n' :: post) ?_
        simp only [List.cons_append, List.nil_append, hasBlankLine,
          Bool.or_eq_false_iff] at h
        exact h.1
      | cons d r =>
        refine nlnl_isPrefixOf_eq_false _ ?_
        simp only [List.cons_append, hasBlankLine, Bool.or_eq_false_iff] at h
        exact h.1
    show splitUntil ['\n', '\n'] (c :: (cs ++ '\n' :: '\n' :: post)) = _
    unfold splitUntil
    simp [hpre, ih post (hasBlankLine_tail h)]

theorem tagP_append (t r : List Char) : tagP t (t ++ r) = some ((), r) := by
  unfold tagP
  rw [if_pos (List.isPrefixOf_iff_prefix.mpr (List.prefix_append t r))]
  rw [List.drop_left]

theorem takeWhile_all_append {p : Char → Bool} :
    ∀ {l : List Char} (r : List Char), (∀ c ∈ l, p c = true) →
      (l ++ r).takeWhile p = l ++ r.takeWhile p := by
  intro l
  induction l with
  | nil => intro r _; rfl
  | cons c cs ih =>
    intro r h
    simp only [List.cons_append, List.takeWhile_cons]
    rw [h c (by simp)]
    simp only [if_true]
    rw [ih r (fun d hd => h d (by simp [hd]))]

theorem dropWhile_all_append {p : Char → Bool} :
    ∀ {l : List Char} (r : List Char), (∀ c ∈ l, p c = true) →
      (l ++ r).dropWhile p = r.dropWhile p := by
  intro l
  induction l with
  | nil => intro r _; rfl
  | cons c cs ih =>
    intro r h
    simp only [List.cons_append, List.dropWhile_cons]
    rw [h c (by simp)]
    simp only [if_true]
    exact ih r (fun d hd => h d (by simp [hd]))

theorem takeWhile_head_false {p : Char → Bool} {l : List Char}
    (h : ∀ c, l.head? = some c → p c = false) : l.takeWhile p = [] := by
  cases l with
  | nil => rfl
  | cons c cs =>
    simp only [List.takeWhile_cons]
    rw [h c rfl]
    simp

theorem dropWhile_head_false {p : Char → Bool} {l : List Char}
    (h : ∀ c, l.head? = some c → p c = false) : l.dropWhile p = l := by
  cases l with
  | nil => rfl
  | cons c cs =>
    simp only [List.dropWhile_cons]
    rw [h c rfl]
    simp

/-- The `word` parser on a non-whitespace word followed by a
whitespace-or-empty remainder takes exactly the word. -/
theorem word_on_word {name rest : List Char} (hn : name ≠ [])
    (hnw : ∀ c ∈ name, rustIsWhitespace c = false)
    (hr : ∀ c, rest.head? = some c → rustIsWhitespace c = true) :
    word (name ++ rest) = some (name, rest) := by
  have htake : (name ++ rest).takeWhile (fun c => !rustIsWhitespace c) = name := by
    rw [takeWhile_all_append rest (fun c hc => by simp [hnw c hc])]
    rw [takeWhile_head_false (fun c hc => by simp [hr c hc])]
    simp
  have hdrop : (name ++ rest).dropWhile (fun c => !rustIsWhitespace c) = rest := by
    rw [dropWhile_all_append rest (fun c hc => by simp [hnw c hc])]
    exact dropWhile_head_false (fun c hc => by simp [hr c hc])
  unfold word
  rw [htake, hdrop]
  obtain ⟨n0, name', rfl⟩ := List.exists_cons_of_ne_nil hn
  rfl

/-- The `macdef` parser on
`"macdef" ++ whitespace ++ name ++ body ++ blank line ++ post` captures
exactly `body` (which contains no blank line and starts with whitespace, or
is empty) and leaves the blank line in the remaining input. -/
theorem macdef_terminated (w name body post : List Char)
    (hw : ∀ c ∈ w, rustIsWhitespace c = true)
    (hn : name ≠ []) (hnw : ∀ c ∈ name, rustIsWhitespace c = false)
    (hb : ∀ c, body.head? = some c → rustIsWhitespace c = true)
    (hnb : hasBlankLine (body ++ ['\n']) = false) :
    macdef ("macdef".toList ++ (w ++ (name ++ (body ++ '\n' :: '\n' :: post)))) =
      some (Token.macDef name body, '\n' :: '\n' :: post) := by
  unfold macdef
  rw [tagP_append]
  simp only [drop_whitespace]
  have hdw : ((w ++ (name ++ (body ++ '\n' :: '\n' :: post))).dropWhile rustIsWhitespace) =
      name ++ (body ++ '\n' :: '\n' :: post) := by
    rw [dropWhile_all_append _ hw]
    apply dropWhile_head_false
    intro c hc
    obtain ⟨n0, name', rfl⟩ := List.exists_cons_of_ne_nil hn
    simp only [List.cons_append, List.head?_cons, Option.some.injEq] at hc
    rw [← hc]
    exact hnw n0 (by simp)
  rw [hdw]
  have hword : word (name ++ (body ++ '\n' :: '\n' :: post)) =
      some (name, body ++ '\n' :: '\n' :: post) := by
    apply word_on_word hn hnw
    intro c hc
    cases body with
    | nil =>
      simp only [List.nil_append, List.head?_cons, Option.some.injEq] at hc
      rw [← hc]
      decide
    | cons b bs =>
      simp only [List.cons_append, List.head?_cons, Option.some.injEq] at hc
      rw [← hc]
      exact hb b rfl
  rw [hword]
  dsimp only
  rw [splitUntil_blank_found post hnb]

/-- The `macdef` parser with no blank line in the rest of the input captures
everything to end of input as the body. -/
theorem macdef_unterminated (w name body : List Char)
    (hw : ∀ c ∈ w, rustIsWhitespace c = true)
    (hn : name ≠ []) (hnw : ∀ c ∈ name, rustIsWhitespace c = false)
    (hb : ∀ c, body.head? = some c → rustIsWhitespace c = true)
    (hnb : hasBlankLine body = false) :
    macdef ("macdef".toList ++ (w ++ (name ++ body))) =
      some (Token.macDef name body, []) := by
  unfold macdef
  rw [tagP_append]
  simp only [drop_whitespace]
  have hdw : ((w ++ (name ++ body)).dropWhile rustIsWhitespace) = name ++ body := by
    rw [dropWhile_all_append _ hw]
    apply dropWhile_head_false
    intro c hc
    obtain ⟨n0, name', rfl⟩ := List.exists_cons_of_ne_nil hn
    simp only [List.cons_append, List.head?_cons, Option.some.injEq] at hc
    rw [← hc]
    exact hnw n0 (by simp)
  rw [hdw]
  have hword : word (name ++ body) = some (name, body) :=
    word_on_word hn hnw hb
  rw [hword]
  dsimp only
  rw [splitUntil_blank_none hnb]


/-- C6: the tokenizer captures, after `macdef` and the next
whitespace-delimited word (the macro name), everything up to but not
including the first blank line — or to end of input if no blank line
follows — verbatim as one opaque `MacDef` token (never re-tokenized), and
the builder ignores `MacDef` tokens entirely, so keyword-like words inside a
macro body never create or alter an entry; on the spec's example input,
lookup of `A` yields the block after the blank line. -/
theorem macdef_body_opaque_and_inert {Host : Type} [DecidableEq Host] :
    (∀ w name body post : List Char,
        (∀ c ∈ w, rustIsWhitespace c = true) → name ≠ [] →
        (∀ c ∈ name, rustIsWhitespace c = false) →
        (∀ c, body.head? = some c → rustIsWhitespace c = true) →
        hasBlankLine (body ++ ['\n']) = false →
        macdef ("macdef".toList ++ (w ++ (name ++ (body ++ '\n' :: '\n' :: post)))) =
          some (Token.macDef name body, '\n' :: '\n' :: post)) ∧
    (∀ w name body : List Char,
        (∀ c ∈ w, rustIsWhitespace c = true) → name ≠ [] →
        (∀ c ∈ name, rustIsWhitespace c = false) →
        (∀ c, body.head? = some c → rustIsWhitespace c = true) →
        hasBlankLine body = false →
        macdef ("macdef".toList ++ (w ++ (name ++ body))) =
          some (Token.macDef name body, [])) ∧
    (∀ (hp : List Char → Option Host) (s : BuildState Host) (n c : List Char)
        (rest : List Token),
        parse_loop hp s (Token.macDef n c :: rest) = parse_loop hp s rest) ∧
    (∀ (hp : List Char → Option Host) (hA : Host), hp ['A'] = some hA →
        (parse_config hp
          "macdef m\nmachine A login x password y\n\nmachine A login real password pw".toList).entries
          hA = some ⟨some "real".toList, some "pw".toList, none⟩ ∧
        entryLookup (parse_config hp
          "macdef m\nmachine A login x password y\n\nmachine A login real password pw".toList)
          hA = some ⟨some "real".toList, "pw".toList⟩) := by
  refine ⟨macdef_terminated, macdef_unterminated, ?_, ?_⟩
  · intro hp s n c rest
    simp [parse_loop]
  · intro hp hA hH
    have htok : tokenize
        "macdef m\nmachine A login x password y\n\nmachine A login real password pw".toList =
        [Token.macDef ['m'] "\nmachine A login x password y".toList,
         Token.machine, Token.text ['A'], Token.login, Token.text "real".toList,
         Token.password, Token.text "pw".toList] := by decide
    unfold parse_config
    rw [htok]
    constructor
    · simp [parse_loop, setLogin, setPassword, configOf, commitActive, insertEntry,
            Token.toString, hH, initState, RawEntry.default]
    · simp [parse_loop, setLogin, setPassword, configOf, commitActive, insertEntry,
            entryLookup, rawResolve, validate, Token.toString, hH, initState,
            RawEntry.default, Option.or]

/-- Witness for `macdef_body_opaque_and_inert` at concrete macro inputs and
a concrete host map. -/
theorem macdef_body_opaque_and_inert_witness :
    macdef ("macdef".toList ++ ([' '] ++ (['m'] ++
        ("\nx".toList ++ '\n' :: '\n' :: "rest".toList)))) =
      some (Token.macDef ['m'] "\nx".toList, '\n' :: '\n' :: "rest".toList) ∧
    macdef ("macdef".toList ++ ([' '] ++ (['m'] ++ "\nbody".toList))) =
      some (Token.macDef ['m'] "\nbody".toList, []) ∧
    (parse_config hpA
      "macdef m\nmachine A login x password y\n\nmachine A login real password pw".toList).entries
      3 = some ⟨some "real".toList, some "pw".toList, none⟩ :=
  ⟨(@macdef_body_opaque_and_inert Nat instDecidableEqNat).1 [' '] ['m'] "\nx".toList "rest".toList
      (by decide) (by decide) (by decide) (by decide) (by decide),
   (@macdef_body_opaque_and_inert Nat instDecidableEqNat).2.1 [' '] ['m'] "\nbody".toList
      (by decide) (by decide) (by decide) (by decide) (by decide),
   ((@macdef_body_opaque_and_inert Nat instDecidableEqNat).2.2.2 hpA 3 (by decide)).1⟩

/-- C7 counterexample: in `default login u login`, the default section first
assigns `login := u` — a non-absent field assignment, visible in the builder
state after three tokens — and yet the final configuration's `default` is
`None`: the trailing `login` keyword with no following token overwrites the
field with absent, making the accumulated record equal to the empty record
again. -/
theorem default_assignment_then_none :
    (parse_loop (fun _ => none : List Char → Option Nat) (initState Nat)
        [Token.default, Token.login, Token.text ['u']]).default.login = some ['u'] ∧
    tokenize "default login u login".toList =
      [Token.default, Token.login, Token.text ['u'], Token.login] ∧
    (parse_config (fun _ => none : List Char → Option Nat)
        "default login u login".toList).default = none := by
  refine ⟨by decide, by decide, by decide⟩

/-- C7 (amended): the configuration's `default` is `None` exactly when the
accumulated default record equals the empty record at the end of the scan
(not merely when no section ever assigned a non-absent field — a trailing
keyword with a missing value can erase a previous assignment); `Default`
only switches the mode flag without resetting the accumulated record, and
assignments in default mode overwrite single fields, so later `default`
sections accumulate field-by-field rather than replacing the record. -/
theorem default_record_field_accumulation {Host : Type} [DecidableEq Host] :
    (∀ (hp : List Char → Option Host) (input : List Char),
        ((parse_config hp input).default = none ↔
          (parse_loop hp (initState Host) (tokenize input)).default =
            RawEntry.default)) ∧
    (∀ (hp : List Char → Option Host) (s : BuildState Host) (rest : List Token),
        parse_loop hp s (Token.default :: rest) =
          parse_loop hp { s with in_default := true } rest) ∧
    (∀ (hp : List Char → Option Host) (s : BuildState Host) (t : Token)
        (rest : List Token), s.in_default = true →
        parse_loop hp s (Token.login :: t :: rest) =
          parse_loop hp
            { s with default := { s.default with login := some t.toString } } rest) ∧
    (∀ (hp : List Char → Option Host) (s : BuildState Host) (t : Token)
        (rest : List Token), s.in_default = true →
        parse_loop hp s (Token.password :: t :: rest) =
          parse_loop hp
            { s with default := { s.default with password := some t.toString } } rest) ∧
    (∀ (hp : List Char → Option Host) (s : BuildState Host) (t : Token)
        (rest : List Token), s.in_default = true →
        parse_loop hp s (Token.account :: t :: rest) =
          parse_loop hp
            { s with default := { s.default with account := some t.toString } } rest) ∧
    (∀ (hp : List Char → Option Host) (h : Host),
        rawResolve (parse_config hp "default login a default password b".toList) h =
          some ⟨some ['a'], some ['b'], none⟩) := by
  refine ⟨?_, ?_, ?_, ?_, ?_, ?_⟩
  · intro hp input
    unfold parse_config configOf
    dsimp only
    split
    · rename_i hdef
      simp [hdef]
    · rename_i hdef
      simp [hdef]
  · intro hp s rest
    simp [parse_loop]
  · intro hp s t rest h
    simp [parse_loop, setLogin, h]
  · intro hp s t rest h
    simp [parse_loop, setPassword, h]
  · intro hp s t rest h
    simp [parse_loop, setAccount, h]
  · intro hp h
    have htok : tokenize "default login a default password b".toList =
        [Token.default, Token.login, Token.text ['a'], Token.default,
         Token.password, Token.text ['b']] := by decide
    unfold parse_config
    rw [htok]
    simp [parse_loop, setLogin, setPassword, configOf, commitActive,
          rawResolve, Token.toString, initState, RawEntry.default]

/-- Witness for `default_record_field_accumulation` at a concrete host map,
state and input. -/
theorem default_record_field_accumulation_witness :
    ((parse_config hpW "default login u".toList).default = none ↔
      (parse_loop hpW (initState Nat) (tokenize "default login u".toList)).default =
        RawEntry.default) ∧
    parse_loop hpW (initState Nat) [Token.default] =
      parse_loop hpW { initState Nat with in_default := true } [] ∧
    parse_loop hpW { initState Nat with in_default := true }
        [Token.login, Token.text ['u']] =
      parse_loop hpW
        { initState Nat with
            default := { (initState Nat).default with login := some ['u'] },
            in_default := true } [] ∧
    rawResolve (parse_config hpW "default login a default password b".toList) 9 =
      some ⟨some ['a'], some ['b'], none⟩ := by
  refine ⟨default_record_field_accumulation.1 hpW "default login u".toList,
    default_record_field_accumulation.2.1 hpW (initState Nat) [],
    ?_,
    default_record_field_accumulation.2.2.2.2.2 hpW 9⟩
  have := default_record_field_accumulation.2.2.1 hpW
    { initState Nat with in_default := true } (Token.text ['u']) [] rfl
  simpa [Token.toString] using this

/-- C2 counterexample: the keyword parsers use `tag`-style prefix matching,
not whole-word matching: tokenizing the single word `machines` does not
yield one `Text("machines")` token — it yields the `Machine` keyword token
followed by `Text("s")`. -/
theorem keyword_prefix_match_counterexample :
    tokenize "machines".toList ≠ [Token.text "machines".toList] ∧
    tokenize "machines".toList = [Token.machine, Token.text ['s']] := by
  refine ⟨by decide, by decide⟩

/-- C2 (amended): the five keyword words match case-sensitively, but as
prefixes rather than whole words: each exact keyword word tokenizes to
exactly its keyword token, case variants do not, and every nonempty
whitespace-free word that does not begin with one of the keyword words (nor
with `macdef`) is emitted as a single `Text` token carrying its full literal
value; a word that merely begins with a keyword (such as `machines`) is
split instead. -/
theorem keyword_and_text_tokens :
    (tokenize "machine".toList = [Token.machine] ∧
     tokenize "login".toList = [Token.login] ∧
     tokenize "password".toList = [Token.password] ∧
     tokenize "account".toList = [Token.account] ∧
     tokenize "default".toList = [Token.default] ∧
     tokenize "Machine".toList = [Token.text "Machine".toList] ∧
     tokenize "DEFAULT".toList = [Token.text "DEFAULT".toList]) ∧
    (∀ w : List Char, w ≠ [] → (∀ c ∈ w, rustIsWhitespace c = false) →
        ("machine".toList.isPrefixOf w) = false →
        ("login".toList.isPrefixOf w) = false →
        ("password".toList.isPrefixOf w) = false →
        ("account".toList.isPrefixOf w) = false →
        ("default".toList.isPrefixOf w) = false →
        ("macdef".toList.isPrefixOf w) = false →
        tokenize w = [Token.text w]) := by
  constructor
  · refine ⟨by decide, by decide, by decide, by decide, by decide, by decide, by decide⟩
  · intro w hne hnw p1 p2 p3 p4 p5 p6
    have p7 : (("# ".toList).isPrefixOf w) = false := by
      cases hq : ("# ".toList).isPrefixOf w with
      | false => rfl
      | true =>
        obtain ⟨r, hr⟩ := List.isPrefixOf_iff_prefix.mp hq
        exfalso
        have hmem : ' ' ∈ w := by
          rw [← hr]
          exact List.mem_append_left _ (by decide)
        exact absurd (hnw ' ' hmem) (by decide)
    have hword : word w = some (w, []) := by
      have := @word_on_word w [] hne hnw (by intro c hc; simp at hc)
      rwa [List.append_nil] at this
    have hm : machine w = none := by unfold machine; rw [tagP_none p1]
    have hl : login w = none := by unfold login; rw [tagP_none p2]
    have hpw : password w = none := by unfold password; rw [tagP_none p3]
    have ha : account w = none := by unfold account; rw [tagP_none p4]
    have hd : defaultP w = none := by unfold defaultP; rw [tagP_none p5]
    have hc : comment w = none := by unfold comment; rw [tagP_none p7]
    have hmd : macdef w = none := by unfold macdef; rw [tagP_none p6]
    have ht : text w = some (Token.text w, []) := by unfold text; rw [hword]
    have htok : token w = some (Token.text w, []) := by
      unfold token
      simp only [hm, hl, hpw, ha, hd, hc, hmd, ht]
    have hdw : w.dropWhile rustIsWhitespace = w := by
      apply dropWhile_head_false
      intro c hc'
      obtain ⟨c0, cs, rfl⟩ := List.exists_cons_of_ne_nil hne
      simp only [List.head?_cons, Option.some.injEq] at hc'
      rw [← hc']
      exact hnw c0 (by simp)
    have hstep : tokenizeStep w = some (Token.text w, []) := by
      unfold tokenizeStep
      simp only [drop_whitespace]
      rw [hdw, htok]
    unfold tokenize
    simp only [tokenizeFuel, hstep]
    rw [tokenizeFuel_nil]

/-- Witness for `keyword_and_text_tokens` at the concrete word `foo`. -/
theorem keyword_and_text_tokens_witness :
    tokenize "foo".toList = [Token.text "foo".toList] :=
  keyword_and_text_tokens.2 "foo".toList (by decide) (by decide) (by decide)
    (by decide) (by decide) (by decide) (by decide) (by decide)

/-- C3: validated lookup resolves exactly one whole record — the
host-specific entry if present, else the default record — and returns a
`ValidatedEntry` iff that record's password is present, with the entry's
login equal to the record's login if present else its account; a
host-specific record without a password yields an absent result even when a
complete default record exists, and fields are never merged between the two
records. -/
theorem validated_lookup_one_record {Host : Type} [DecidableEq Host]
    (cfg : NetrcConfig Host) (h : Host) :
    (∀ e p, cfg.entries h = some e → e.password = some p →
        entryLookup cfg h = some ⟨e.login.or e.account, p⟩) ∧
    (∀ e, cfg.entries h = some e → e.password = none →
        entryLookup cfg h = none) ∧
    (∀ e p, cfg.entries h = none → cfg.default = some e → e.password = some p →
        entryLookup cfg h = some ⟨e.login.or e.account, p⟩) ∧
    (∀ e, cfg.entries h = none → cfg.default = some e → e.password = none →
        entryLookup cfg h = none) ∧
    (cfg.entries h = none → cfg.default = none → entryLookup cfg h = none) ∧
    ((entryLookup cfg h).isSome ↔
      ∃ r, rawResolve cfg h = some r ∧ r.password.isSome) := by
  refine ⟨?_, ?_, ?_, ?_, ?_, ?_⟩
  · intro e p hE hP
    simp [entryLookup, rawResolve, hE, validate, hP]
  · intro e hE hP
    simp [entryLookup, rawResolve, hE, validate, hP]
  · intro e p hE hD hP
    simp [entryLookup, rawResolve, hE, hD, validate, hP]
  · intro e hE hD hP
    simp [entryLookup, rawResolve, hE, hD, validate, hP]
  · intro hE hD
    simp [entryLookup, rawResolve, hE, hD]
  · constructor
    · intro hs
      cases hr : rawResolve cfg h with
      | none =>
        unfold entryLookup at hs
        rw [hr] at hs
        simp at hs
      | some r =>
        unfold entryLookup at hs
        rw [hr] at hs
        cases hq : r.password with
        | none => simp [validate, hq] at hs
        | some p => exact ⟨r, rfl, by simp [hq]⟩
    · rintro ⟨r, hr, hp⟩
      obtain ⟨p, hp'⟩ := Option.isSome_iff_exists.mp hp
      simp [entryLookup, hr, validate, hp']


/-- Witness for `validated_lookup_one_record`: account fallback on the
host-specific record, and default-record fallback for an unknown host. -/
theorem validated_lookup_one_record_witness :
    entryLookup cfgW 0 = some ⟨some ['a'], ['p']⟩ ∧
    entryLookup cfgW 1 = some ⟨some ['d'], ['q']⟩ :=
  ⟨(validated_lookup_one_record cfgW 0).1 ⟨none, some ['p'], some ['a']⟩ ['p'] rfl rfl,
   (validated_lookup_one_record cfgW 1).2.2.1 ⟨some ['d'], some ['q'], none⟩ ['q']
     rfl rfl rfl⟩


/-- C1 (code bug): `entry_for_host` performs `read_to_string` on every call,
before consulting the memoized configuration, so the byte source is read on
every lookup, not only the first: with a source that fails on the second
read, the first lookup succeeds but the second returns an I/O error instead
of the memoized successful result.  The Config Builder itself does run only
once — with a source whose successful second read yields different bytes,
the second lookup still answers from the memoized configuration. -/
theorem second_call_rereads_source :
    (entry_for_host hpW (NetrcParser.new failingSource) 0).1 =
      Except.ok (some ⟨some ['u'], ['p']⟩) ∧
    (entry_for_host hpW (entry_for_host hpW (NetrcParser.new failingSource) 0).2 0).1 =
      Except.error () ∧
    (entry_for_host hpW (entry_for_host hpW (NetrcParser.new changingSource) 0).2 0).1 =
      Except.ok (some ⟨some ['u'], ['p']⟩) := by
  exact ⟨rfl, rfl, rfl⟩

end Netrc
